import Mathlib

/-!
Shallow embedding of the spacewar simulation core (`src/main.rs`).

Modelling conventions:
* `f32` scalars are modelled as real numbers `ℝ`; the claims under study are
  properties of the arithmetic the code performs, stated over exact reals.
* `HashMap<u32, V>` is modelled as an association list `List (Nat × V)` kept
  in insertion order; `insert` mirrors the map API (replace when the key is
  present, otherwise add an entry), and `remove(..).unwrap()` is modelled as
  an `Option`-valued removal where `none` stands for the `unwrap` panic.
* Methods taking `&mut self` become state-passing functions.
* `Mook::random()` draws position, velocity and orientation from the process
  RNG; the freshly sampled mook is therefore passed to `Board.add_mook` as an
  argument, which keeps the key/counter bookkeeping exactly as in the source.
-/

/-- Keys of an association list, in entry order (`HashMap` key set). -/
def keysOf {α : Type} (m : List (Nat × α)) : List Nat := m.map Prod.fst

/-- Lookup standing for `HashMap::get`: first entry with the given key. -/
def lookupKey {α : Type} (k : Nat) : List (Nat × α) → Option α
  | [] => none
  | p :: m => if p.1 = k then some p.2 else lookupKey k m

/-- Insert standing for `HashMap::insert`: replace the value when the key is
present, otherwise add a new entry. -/
def insertKV {α : Type} (k : Nat) (v : α) (m : List (Nat × α)) : List (Nat × α) :=
  if k ∈ keysOf m then m.map (fun p => if p.1 = k then (k, v) else p) else m ++ [(k, v)]

/-- Removal standing for `HashMap::remove(&k).unwrap()`: `none` models the
panic taken when the key is absent. -/
def removeKey {α : Type} (k : Nat) (m : List (Nat × α)) : Option (List (Nat × α)) :=
  match lookupKey k m with
  | some _ => some (m.filter (fun p => p.1 ≠ k))
  | none => none

noncomputable section

/-- `const STEP: f32 = 0.02;` -/
def STEP : ℝ := 0.02

/-- `const ACCEL: f32 = 0.01;` -/
def ACCEL : ℝ := 0.01

/-- `Vec2<f32>` from nalgebra, restricted to the operations the game uses. -/
structure Vec2 where
  x : ℝ
  y : ℝ

/-- Componentwise vector addition. -/
def Vec2.add (v w : Vec2) : Vec2 := ⟨v.x + w.x, v.y + w.y⟩

/-- Vector-times-scalar, as written `v * c` in the source. -/
def Vec2.smul (v : Vec2) (c : ℝ) : Vec2 := ⟨v.x * c, v.y * c⟩

/-- `Norm::sqnorm`: squared euclidean norm. -/
def Vec2.sqnorm (v : Vec2) : ℝ := v.x * v.x + v.y * v.y

/-- `Norm::norm`: euclidean norm. -/
def Vec2.norm (v : Vec2) : ℝ := Real.sqrt v.sqnorm

/-- `Norm::normalize_mut`: divide every component by the norm. -/
def Vec2.normalize (v : Vec2) : Vec2 := v.smul v.norm⁻¹

/-- Second half of `wrap`: `if v.y.abs() > 1.05 { v.y *= -1.0 }`. -/
def wrapY (v : Vec2) : Vec2 := if |v.y| > 1.05 then { v with y := -v.y } else v

/-- `wrap` (`src/main.rs:238`): two independent sign flips, run in sequence;
the x test `if v.x.abs() > 1.05 { v.x *= -1.0 }` followed by the y test. -/
def wrap (v : Vec2) : Vec2 := wrapY (if |v.x| > 1.05 then { v with x := -v.x } else v)

/-- `struct Ship`. -/
structure Ship where
  pos : Vec2
  vel : Vec2
  orient : ℝ
  health : ℝ

/-- `Ship::new`. -/
def Ship.new : Ship := ⟨⟨0, 0⟩, ⟨0, 0⟩, 0, 1⟩

/-- `Ship::orient_vec`: `Rot2::new(Vec1::new(orient)).rotate(&Vec2::x())`,
i.e. the rotation of the unit x vector by angle `orient`. -/
def Ship.orient_vec (s : Ship) : Vec2 := ⟨Real.cos s.orient, Real.sin s.orient⟩

/-- `Ship::step`: `pos = pos + vel * STEP` then `wrap(&mut pos)`. -/
def Ship.step (s : Ship) : Ship := { s with pos := wrap (s.pos.add (s.vel.smul STEP)) }

/-- `Ship::accelerate`: `vel = vel + orient_vec() * accel;
if vel.norm() > 1.0 { vel.normalize_mut() }`. -/
def Ship.accelerate (s : Ship) (accel : ℝ) : Ship :=
  if (s.vel.add (s.orient_vec.smul accel)).norm > 1 then
    { s with vel := (s.vel.add (s.orient_vec.smul accel)).normalize }
  else
    { s with vel := s.vel.add (s.orient_vec.smul accel) }

/-- `Ship::accel`: `accelerate(ACCEL)`. -/
def Ship.accel (s : Ship) : Ship := s.accelerate ACCEL

/-- `Ship::decel`: `accelerate(-1.0 * ACCEL)`. -/
def Ship.decel (s : Ship) : Ship := s.accelerate (-1 * ACCEL)

/-- `struct Bullet`. -/
structure Bullet where
  pos : Vec2
  vel : Vec2

/-- `Ship::fire`: `Bullet::new(self.pos, self.orient_vec() * 2.0)`. Takes
`&self` only, so the ship itself is untouched. -/
def Ship.fire (s : Ship) : Bullet := ⟨s.pos, s.orient_vec.smul 2⟩

/-- `Bullet::step`: `pos = pos + vel * STEP` with no wrapping. -/
def Bullet.step (bl : Bullet) : Bullet := { bl with pos := bl.pos.add (bl.vel.smul STEP) }

/-- `struct Mook`. -/
structure Mook where
  pos : Vec2
  vel : Vec2
  orient : ℝ
  health : ℝ
  level : Nat

/-- `Mook::new`: health 1.0, level 5. -/
def Mook.new (pos vel : Vec2) (orient : ℝ) : Mook := ⟨pos, vel, orient, 1, 5⟩

/-- `Mook::step`: `pos = pos + vel * STEP; orient += 0.1; wrap(&mut pos)`. -/
def Mook.step (m : Mook) : Mook :=
  { m with pos := wrap (m.pos.add (m.vel.smul STEP)), orient := m.orient + 0.1 }

/-- `struct Board`. -/
structure Board where
  ship : Ship
  mooks : List (Nat × Mook)
  bullets : List (Nat × Bullet)
  bulletct : Nat
  mookct : Nat

/-- `Board::new`: fresh ship, empty maps, both counters zero. -/
def Board.new : Board := ⟨Ship.new, [], [], 0, 0⟩

/-- `Board::fire`: insert the ship's bullet at key `bulletct`, then increment
the counter. -/
def Board.fire (b : Board) : Board :=
  { b with bullets := insertKV b.bulletct b.ship.fire b.bullets,
           bulletct := b.bulletct + 1 }

/-- `Board::add_mook`: insert the (randomly sampled) mook at key `mookct`,
then increment the counter. -/
def Board.add_mook (b : Board) (m : Mook) : Board :=
  { b with mooks := insertKV b.mookct m b.mooks, mookct := b.mookct + 1 }

/-- The `to_rm` list built by `Board::sweep`: keys of all bullets whose
squared norm exceeds `2.0`, in map iteration order. -/
def Board.toRm (b : Board) : List Nat :=
  keysOf (b.bullets.filter (fun p => p.2.pos.sqnorm > 2))

/-- The removal loop of `Board::sweep`: remove each collected key in turn,
`none` modelling the `unwrap` panic on a missing key. -/
def sweepRm : List Nat → List (Nat × Bullet) → Option (List (Nat × Bullet))
  | [], m => some m
  | k :: ks, m =>
    match removeKey k m with
    | some m1 => sweepRm ks m1
    | none => none

/-- `Board::sweep`: collect the out-of-range bullet keys, then remove them
one by one, unwrapping each removal. -/
def Board.sweep (b : Board) : Option Board :=
  (sweepRm b.toRm b.bullets).map (fun bs => { b with bullets := bs })

/-- The three advancement loops at the start of `Board::step`: ship, then
every bullet value, then every mook value. -/
def advanceAll (b : Board) : Board :=
  { b with ship := b.ship.step,
           bullets := b.bullets.map (fun p => (p.1, p.2.step)),
           mooks := b.mooks.map (fun p => (p.1, p.2.step)) }

/-- `Board::step`: advance the ship, every bullet, every mook, then sweep.
Note the source's `step` never calls `collision_detect`. -/
def Board.step (b : Board) : Option Board := (advanceAll b).sweep

/-- `Board::collision_detect` (`src/main.rs:203`). Its only conditional
branch has an empty body, and the names it mentions (`near_detect`,
`exact_detect`, `Mook::explode`, the variable `mook`) are not defined
anywhere in the repository, so the pass denotes no change of the board at
all; it is moreover never called (in particular not from `Board::step`).
Embedded as the state identity it denotes. -/
def Board.collision_detect (b : Board) : Board := b

/-- The board-mutating keys handled by `game_loop` (`Q` only exits the loop
and `Space` fires, see `applyKey`). -/
inductive Key
  | left
  | right
  | up
  | down
  | space

/-- The per-held-key intents of `game_loop` (`src/main.rs:453-464`):
`Left => orient += 10.0 * PI / 180.`, `Right => orient -= 10.0 * PI / 180.`,
`Up => accel()`, `Down => decel()`, `Space => fire()`. -/
def applyKey (b : Board) : Key → Board
  | Key.left => { b with ship := { b.ship with orient := b.ship.orient + 10 * Real.pi / 180 } }
  | Key.right => { b with ship := { b.ship with orient := b.ship.orient - 10 * Real.pi / 180 } }
  | Key.up => { b with ship := b.ship.accel }
  | Key.down => { b with ship := b.ship.decel }
  | Key.space => b.fire

/-- One board mutation as issued by `main`/`game_loop`: a tick of
`Board::step`, an explicit `add_mook` spawn, or a held-key intent. -/
inductive Op
  | tick
  | addMook (m : Mook)
  | key (k : Key)

/-- Apply a single operation; `none` propagates the sweep panic. -/
def applyOp (b : Board) : Op → Option Board
  | Op.tick => b.step
  | Op.addMook m => some (b.add_mook m)
  | Op.key k => some (applyKey b k)

/-- Apply a sequence of operations from a starting board. -/
def applyOps : Board → List Op → Option Board
  | b, [] => some b
  | b, op :: ops =>
    match applyOp b op with
    | some b1 => applyOps b1 ops
    | none => none

/-- A spawn command: `Board::fire` or `Board::add_mook` with a sampled mook. -/
inductive SpawnOp
  | fire
  | mook (m : Mook)

/-- Whether a spawn command is a bullet spawn. -/
def SpawnOp.isFire : SpawnOp → Bool
  | SpawnOp.fire => true
  | SpawnOp.mook _ => false

/-- Apply one spawn command. -/
def applySpawn (b : Board) : SpawnOp → Board
  | SpawnOp.fire => b.fire
  | SpawnOp.mook m => b.add_mook m

/-- Apply a sequence of spawn commands. -/
def applySpawns : Board → List SpawnOp → Board
  | b, [] => b
  | b, s :: ss => applySpawns (applySpawn b s) ss

/-- Well-formedness of a board's maps, as guaranteed by `HashMap` plus the
counter discipline: keys are distinct and below their counter. -/
def Board.WF (b : Board) : Prop :=
  (keysOf b.bullets).Nodup ∧ (keysOf b.mooks).Nodup ∧
    (∀ k ∈ keysOf b.bullets, k < b.bulletct) ∧ (∀ k ∈ keysOf b.mooks, k < b.mookct)

/-- Modelled from the spec: the observable effect demanded of the collision
pass (§4.3) on a mook/bullet pair that certainly collides. When a mook and a
bullet of the pre-state sit at the same point, every broad-phase bounding
circle test (distance zero against any positive radii) and every exact-phase
test (coincident point) passes, so the resolution must remove the bullet or
decrement that mook's health in the post-state. -/
def collisionResolved (pre post : Board) : Prop :=
  ∀ km m kb bl, lookupKey km pre.mooks = some m → lookupKey kb pre.bullets = some bl →
    m.pos = bl.pos →
      (lookupKey kb post.bullets = none ∨
        ∃ m1, lookupKey km post.mooks = some m1 ∧ m1.health < m.health)

end

/-! Association-list lemmas used to reason about the sweep loop. -/

lemma keysOf_nil {α : Type} : keysOf ([] : List (Nat × α)) = [] := rfl

lemma keysOf_cons {α : Type} (p : Nat × α) (m : List (Nat × α)) :
    keysOf (p :: m) = p.1 :: keysOf m := rfl

lemma keysOf_append {α : Type} (m m' : List (Nat × α)) :
    keysOf (m ++ m') = keysOf m ++ keysOf m' := by
  simp [keysOf]

lemma mem_keysOf {α : Type} {m : List (Nat × α)} {k : Nat} :
    k ∈ keysOf m ↔ ∃ v, (k, v) ∈ m := by
  unfold keysOf
  constructor
  · intro h
    obtain ⟨p, hp, hk⟩ := List.mem_map.mp h
    exact ⟨p.2, by simpa [← hk] using hp⟩
  · rintro ⟨v, hv⟩
    exact List.mem_map.mpr ⟨(k, v), hv, rfl⟩

lemma lookupKey_mem {α : Type} {k : Nat} {m : List (Nat × α)} (h : k ∈ keysOf m) :
    ∃ v, lookupKey k m = some v := by
  induction m with
  | nil => simp [keysOf] at h
  | cons p m ih =>
    by_cases hpk : p.1 = k
    · exact ⟨p.2, by simp [lookupKey, hpk]⟩
    · have hm : k ∈ keysOf m := by
        rcases (by simpa [keysOf_cons] using h : k = p.1 ∨ k ∈ keysOf m) with h1 | h1
        · exact absurd h1.symm hpk
        · exact h1
      obtain ⟨v, hv⟩ := ih hm
      exact ⟨v, by simp [lookupKey, hpk, hv]⟩

lemma lookupKey_eq_some_of_mem {α : Type} {k : Nat} {v : α} {m : List (Nat × α)}
    (hnd : (keysOf m).Nodup) (hv : (k, v) ∈ m) : lookupKey k m = some v := by
  induction m with
  | nil => simp at hv
  | cons p m ih =>
    rcases List.mem_cons.mp hv with h1 | h1
    · simp [lookupKey, ← h1]
    · have hk : k ∈ keysOf m := mem_keysOf.mpr ⟨v, h1⟩
      have hpk : p.1 ≠ k := by
        intro he
        exact (List.nodup_cons.mp (by simpa [keysOf_cons] using hnd)).1 (he ▸ hk)
      simpa [lookupKey, hpk] using ih (List.nodup_cons.mp (by simpa [keysOf_cons] using hnd)).2 h1

lemma eq_of_mem_of_nodup_keysOf {α : Type} {m : List (Nat × α)}
    (hnd : (keysOf m).Nodup) {p q : Nat × α} (hp : p ∈ m) (hq : q ∈ m)
    (hfst : p.1 = q.1) : p = q :=
  List.inj_on_of_nodup_map hnd hp hq hfst

lemma removeKey_eq_of_mem {α : Type} {k : Nat} {m : List (Nat × α)} (h : k ∈ keysOf m) :
    removeKey k m = some (m.filter (fun p => p.1 ≠ k)) := by
  obtain ⟨v, hv⟩ := lookupKey_mem h
  simp [removeKey, hv]

lemma keysOf_filter_sublist {α : Type} (q : Nat × α → Bool) (m : List (Nat × α)) :
    (keysOf (m.filter q)).Sublist (keysOf m) :=
  (List.filter_sublist m).map Prod.fst

lemma keysOf_mapVal {α β : Type} (f : α → β) (m : List (Nat × α)) :
    keysOf (m.map (fun p => (p.1, f p.2))) = keysOf m := by
  simp [keysOf, List.map_map]

lemma sweepRm_eq (ks : List Nat) : ∀ (m : List (Nat × Bullet)),
    (keysOf m).Nodup → ks.Nodup → (∀ k ∈ ks, k ∈ keysOf m) →
    sweepRm ks m = some (m.filter (fun p => p.1 ∉ ks)) := by
  induction ks with
  | nil =>
    intro m _ _ _
    simp [sweepRm]
  | cons k ks ih =>
    intro m hnd hks hsub
    have hk : k ∈ keysOf m := hsub k (by simp)
    have hkks : k ∉ ks := (List.nodup_cons.mp hks).1
    have h1 : sweepRm ks (m.filter (fun p => p.1 ≠ k)) =
        some ((m.filter (fun p => p.1 ≠ k)).filter (fun p => p.1 ∉ ks)) := by
      apply ih
      · exact (keysOf_filter_sublist _ m).nodup hnd
      · exact (List.nodup_cons.mp hks).2
      · intro j hj
        obtain ⟨v, hv⟩ := mem_keysOf.mp (hsub j (by simp [hj]))
        have hjk : j ≠ k := fun he => hkks (he ▸ hj)
        exact mem_keysOf.mpr ⟨v, List.mem_filter.mpr ⟨hv, by simpa using hjk⟩⟩
    calc sweepRm (k :: ks) m
        = sweepRm ks (m.filter (fun p => p.1 ≠ k)) := by
          simp [sweepRm, removeKey_eq_of_mem hk]
      _ = some ((m.filter (fun p => p.1 ≠ k)).filter (fun p => p.1 ∉ ks)) := h1
      _ = some (m.filter (fun p => p.1 ∉ k :: ks)) := by
          rw [List.filter_filter]
          congr 1
          apply List.filter_congr
          intro p _
          by_cases h1 : p.1 = k <;> by_cases h2 : p.1 ∈ ks <;>
            simp [h1, h2, List.mem_cons]

lemma sweep_eq (b : Board) (h : (keysOf b.bullets).Nodup) :
    Board.sweep b =
      some { b with bullets := b.bullets.filter (fun p => p.2.pos.sqnorm ≤ 2) } := by
  have hnd : (Board.toRm b).Nodup := (keysOf_filter_sublist _ b.bullets).nodup h
  have hsub : ∀ k ∈ Board.toRm b, k ∈ keysOf b.bullets := fun k hk =>
    (keysOf_filter_sublist _ b.bullets).mem hk
  unfold Board.sweep
  rw [sweepRm_eq (Board.toRm b) b.bullets h hnd hsub]
  simp only [Option.map_some']
  have hfil : b.bullets.filter (fun p => p.1 ∉ Board.toRm b) =
      b.bullets.filter (fun p => p.2.pos.sqnorm ≤ 2) := by
    apply List.filter_congr
    intro p hp
    have hiff : p.1 ∈ Board.toRm b ↔ p.2.pos.sqnorm > 2 := by
      constructor
      · intro hmem
        obtain ⟨v, hv⟩ := mem_keysOf.mp hmem
        have hv' := List.mem_filter.mp hv
        have : (p.1, v) = p := eq_of_mem_of_nodup_keysOf h hv'.1 hp rfl
        have hq : v = p.2 := congrArg Prod.snd this
        simpa [hq] using hv'.2
      · intro hgt
        exact mem_keysOf.mpr ⟨p.2, List.mem_filter.mpr ⟨hp, by simpa using hgt⟩⟩
    have h1 : (p.1 ∉ Board.toRm b) ↔ p.2.pos.sqnorm ≤ 2 := by
      rw [hiff]
      exact not_lt
    have h2 : decide (p.1 ∉ Board.toRm b) = decide (p.2.pos.sqnorm ≤ 2) :=
      decide_eq_decide.mpr h1
    simpa using h2
  rw [hfil]

lemma step_eq (b : Board) (h : (keysOf b.bullets).Nodup) :
    Board.step b =
      some { ship := b.ship.step,
             mooks := b.mooks.map (fun p => (p.1, p.2.step)),
             bullets := (b.bullets.map (fun p => (p.1, p.2.step))).filter
               (fun p => p.2.pos.sqnorm ≤ 2),
             bulletct := b.bulletct, mookct := b.mookct } := by
  have h2 : (keysOf (advanceAll b).bullets).Nodup := by
    unfold advanceAll
    simpa [keysOf_mapVal] using h
  unfold Board.step
  rw [sweep_eq _ h2]
  rfl

/-! Norm lemmas for the speed cap. -/

lemma Vec2.sqnorm_nonneg (v : Vec2) : 0 ≤ v.sqnorm :=
  add_nonneg (mul_self_nonneg _) (mul_self_nonneg _)

lemma Vec2.norm_nonneg (v : Vec2) : 0 ≤ v.norm :=
  Real.sqrt_nonneg _

lemma Vec2.norm_smul (v : Vec2) (c : ℝ) : (v.smul c).norm = |c| * v.norm := by
  unfold Vec2.norm Vec2.smul Vec2.sqnorm
  have h : v.x * c * (v.x * c) + v.y * c * (v.y * c) = c ^ 2 * (v.x * v.x + v.y * v.y) := by
    ring
  rw [h, Real.sqrt_mul (sq_nonneg c), Real.sqrt_sq_eq_abs]

lemma Vec2.norm_normalize {v : Vec2} (h : 0 < v.norm) : v.normalize.norm = 1 := by
  unfold Vec2.normalize
  rw [Vec2.norm_smul, abs_of_nonneg (inv_nonneg.mpr v.norm_nonneg)]
  exact inv_mul_cancel₀ (ne_of_gt h)

lemma accelerate_vel_norm_le (s : Ship) (a : ℝ) : ((s.accelerate a).vel).norm ≤ 1 := by
  unfold Ship.accelerate
  by_cases h : (s.vel.add (s.orient_vec.smul a)).norm > 1
  · rw [if_pos h]
    exact le_of_eq (Vec2.norm_normalize (lt_trans one_pos h))
  · rw [if_neg h]
    exact le_of_not_lt h

lemma foldl_accelerate_norm_le (l : List ℝ) :
    ∀ (s : Ship) (a : ℝ), ((l.foldl Ship.accelerate (s.accelerate a)).vel).norm ≤ 1 := by
  induction l with
  | nil => intro s a; simpa using accelerate_vel_norm_le s a
  | cons c l ih =>
    intro s a
    simpa [List.foldl_cons] using ih (s.accelerate a) c

/-! Preservation lemmas for the well-formedness invariant, the counters and
the ship's health. -/

lemma insertKV_keysOf_of_not_mem {α : Type} {k : Nat} {m : List (Nat × α)}
    (h : k ∉ keysOf m) (v : α) : keysOf (insertKV k v m) = keysOf m ++ [k] := by
  unfold insertKV
  rw [if_neg h, keysOf_append]
  rfl

lemma WF_new : Board.WF Board.new := by
  simp [Board.WF, Board.new, keysOf]

lemma WF_fire {b : Board} (h : b.WF) : (b.fire).WF := by
  obtain ⟨hbn, hmn, hbc, hmc⟩ := h
  have hnot : b.bulletct ∉ keysOf b.bullets := fun hmem => lt_irrefl _ (hbc _ hmem)
  have hkeys : keysOf (b.fire).bullets = keysOf b.bullets ++ [b.bulletct] := by
    unfold Board.fire
    exact insertKV_keysOf_of_not_mem hnot _
  refine ⟨?_, by simpa [Board.fire] using hmn, ?_, by simpa [Board.fire] using hmc⟩
  · rw [hkeys]
    simp [List.nodup_append, hbn, hnot]
  · intro k hk
    rw [hkeys] at hk
    rcases List.mem_append.mp hk with h1 | h1
    · exact lt_trans (hbc _ h1) (by simp [Board.fire])
    · simp [Board.fire, List.mem_singleton.mp h1]

lemma WF_add_mook {b : Board} (m : Mook) (h : b.WF) : (b.add_mook m).WF := by
  obtain ⟨hbn, hmn, hbc, hmc⟩ := h
  have hnot : b.mookct ∉ keysOf b.mooks := fun hmem => lt_irrefl _ (hmc _ hmem)
  have hkeys : keysOf (b.add_mook m).mooks = keysOf b.mooks ++ [b.mookct] := by
    unfold Board.add_mook
    exact insertKV_keysOf_of_not_mem hnot _
  refine ⟨by simpa [Board.add_mook] using hbn, ?_, by simpa [Board.add_mook] using hbc, ?_⟩
  · rw [hkeys]
    simp [List.nodup_append, hmn, hnot]
  · intro k hk
    rw [hkeys] at hk
    rcases List.mem_append.mp hk with h1 | h1
    · exact lt_trans (hmc _ h1) (by simp [Board.add_mook])
    · simp [Board.add_mook, List.mem_singleton.mp h1]

lemma WF_step {b b1 : Board} (hw : b.WF) (h : Board.step b = some b1) : b1.WF := by
  obtain ⟨hbn, hmn, hbc, hmc⟩ := hw
  rw [step_eq b hbn] at h
  obtain rfl := Option.some.inj h
  refine ⟨?_, by simpa [keysOf_mapVal] using hmn, ?_, ?_⟩
  · exact ((keysOf_filter_sublist _ _).nodup (by simpa [keysOf_mapVal] using hbn))
  · intro k hk
    have : k ∈ keysOf (b.bullets.map (fun p => (p.1, p.2.step))) :=
      (keysOf_filter_sublist _ _).mem hk
    rw [keysOf_mapVal] at this
    exact hbc _ this
  · intro k hk
    rw [keysOf_mapVal] at hk
    exact hmc _ hk

lemma WF_applyKey {b : Board} (k : Key) (h : b.WF) : (applyKey b k).WF := by
  cases k with
  | space => exact WF_fire h
  | left => exact h
  | right => exact h
  | up => exact h
  | down => exact h

lemma applyOp_WF {b b1 : Board} {op : Op} (h : applyOp b op = some b1) (hw : b.WF) :
    b1.WF := by
  cases op with
  | tick => exact WF_step hw h
  | addMook m => exact (Option.some.inj h) ▸ WF_add_mook m hw
  | key k => exact (Option.some.inj h) ▸ WF_applyKey k hw

lemma applyOps_WF (ops : List Op) : ∀ (b b1 : Board),
    applyOps b ops = some b1 → b.WF → b1.WF := by
  induction ops with
  | nil =>
    intro b b1 h hw
    exact (Option.some.inj h) ▸ hw
  | cons op ops ih =>
    intro b b1 h hw
    unfold applyOps at h
    cases hop : applyOp b op with
    | none => rw [hop] at h; exact absurd h (by simp)
    | some b2 =>
      rw [hop] at h
      exact ih b2 b1 h (applyOp_WF hop hw)

lemma step_counters {b b1 : Board} (h : Board.step b = some b1) :
    b1.bulletct = b.bulletct ∧ b1.mookct = b.mookct := by
  unfold Board.step Board.sweep at h
  cases hs : sweepRm (advanceAll b).toRm (advanceAll b).bullets with
  | none => rw [hs] at h; exact absurd h (by simp)
  | some bs =>
    rw [hs] at h
    obtain rfl := Option.some.inj (by simpa using h)
    exact ⟨rfl, rfl⟩

lemma applyOp_counters {b b1 : Board} {op : Op} (h : applyOp b op = some b1) :
    b.bulletct ≤ b1.bulletct ∧ b.mookct ≤ b1.mookct := by
  cases op with
  | tick =>
    obtain ⟨h1, h2⟩ := step_counters h
    omega
  | addMook m =>
    obtain rfl := Option.some.inj h
    simp [Board.add_mook]
  | key k =>
    obtain rfl := Option.some.inj h
    cases k with
    | space => simp [applyKey, Board.fire]
    | left => simp [applyKey]
    | right => simp [applyKey]
    | up => simp [applyKey]
    | down => simp [applyKey]

lemma accelerate_health (s : Ship) (a : ℝ) : (s.accelerate a).health = s.health := by
  unfold Ship.accelerate
  by_cases h : (s.vel.add (s.orient_vec.smul a)).norm > 1
  · rw [if_pos h]
  · rw [if_neg h]

lemma applyOp_health {b b1 : Board} {op : Op} (h : applyOp b op = some b1) :
    b1.ship.health = b.ship.health := by
  cases op with
  | tick =>
    replace h : Board.step b = some b1 := h
    unfold Board.step Board.sweep at h
    cases hs : sweepRm (advanceAll b).toRm (advanceAll b).bullets with
    | none => rw [hs] at h; exact absurd h (by simp)
    | some bs =>
      rw [hs] at h
      obtain rfl := Option.some.inj (by simpa using h)
      simp [advanceAll, Ship.step]
  | addMook m =>
    obtain rfl := Option.some.inj h
    rfl
  | key k =>
    obtain rfl := Option.some.inj h
    cases k with
    | space => rfl
    | left => rfl
    | right => rfl
    | up => exact accelerate_health b.ship ACCEL
    | down => exact accelerate_health b.ship (-1 * ACCEL)

lemma applyOps_health (ops : List Op) : ∀ (b b1 : Board),
    applyOps b ops = some b1 → b1.ship.health = b.ship.health := by
  induction ops with
  | nil =>
    intro b b1 h
    rw [Option.some.inj h]
  | cons op ops ih =>
    intro b b1 h
    unfold applyOps at h
    cases hop : applyOp b op with
    | none => rw [hop] at h; exact absurd h (by simp)
    | some b2 =>
      rw [hop] at h
      rw [ih b2 b1 h]
      exact applyOp_health hop

/-! The spawn bookkeeping: fresh boards assign consecutive keys. -/

lemma countP_isFire_cons_fire (ops : List SpawnOp) :
    (SpawnOp.fire :: ops).countP SpawnOp.isFire = ops.countP SpawnOp.isFire + 1 := by
  rw [List.countP_cons]
  rfl

lemma countP_notFire_cons_fire (ops : List SpawnOp) :
    (SpawnOp.fire :: ops).countP (fun s => !s.isFire) =
      ops.countP (fun s => !s.isFire) := by
  rw [List.countP_cons]
  rfl

lemma countP_isFire_cons_mook (m : Mook) (ops : List SpawnOp) :
    (SpawnOp.mook m :: ops).countP SpawnOp.isFire = ops.countP SpawnOp.isFire := by
  rw [List.countP_cons]
  rfl

lemma countP_notFire_cons_mook (m : Mook) (ops : List SpawnOp) :
    (SpawnOp.mook m :: ops).countP (fun s => !s.isFire) =
      ops.countP (fun s => !s.isFire) + 1 := by
  rw [List.countP_cons]
  rfl

lemma applySpawns_keys (ops : List SpawnOp) : ∀ (b : Board),
    keysOf b.bullets = List.range b.bulletct → keysOf b.mooks = List.range b.mookct →
    keysOf (applySpawns b ops).bullets = List.range (applySpawns b ops).bulletct ∧
    keysOf (applySpawns b ops).mooks = List.range (applySpawns b ops).mookct ∧
    (applySpawns b ops).bulletct = b.bulletct + ops.countP SpawnOp.isFire ∧
    (applySpawns b ops).mookct = b.mookct + ops.countP (fun s => !s.isFire) := by
  induction ops with
  | nil =>
    intro b hb hm
    simp [applySpawns, hb, hm]
  | cons s ops ih =>
    intro b hb hm
    cases s with
    | fire =>
      have hnot : b.bulletct ∉ keysOf b.bullets := by
        rw [hb]; simp
      have hb' : keysOf (b.fire).bullets = List.range (b.fire).bulletct := by
        unfold Board.fire
        rw [insertKV_keysOf_of_not_mem hnot, hb]
        simpa using (List.range_succ (n := b.bulletct)).symm
      have hm' : keysOf (b.fire).mooks = List.range (b.fire).mookct := by
        simpa [Board.fire] using hm
      obtain ⟨h1, h2, h3, h4⟩ := ih (b.fire) hb' hm'
      have happ : applySpawns b (SpawnOp.fire :: ops) = applySpawns b.fire ops := rfl
      refine ⟨by rw [happ]; exact h1, by rw [happ]; exact h2, ?_, ?_⟩
      · rw [happ, h3, countP_isFire_cons_fire,
            show (b.fire).bulletct = b.bulletct + 1 from rfl]
        omega
      · rw [happ, h4, countP_notFire_cons_fire,
            show (b.fire).mookct = b.mookct from rfl]
    | mook m =>
      have hnot : b.mookct ∉ keysOf b.mooks := by
        rw [hm]; simp
      have hm' : keysOf (b.add_mook m).mooks = List.range (b.add_mook m).mookct := by
        unfold Board.add_mook
        rw [insertKV_keysOf_of_not_mem hnot, hm]
        simpa using (List.range_succ (n := b.mookct)).symm
      have hb' : keysOf (b.add_mook m).bullets = List.range (b.add_mook m).bulletct := by
        simpa [Board.add_mook] using hb
      obtain ⟨h1, h2, h3, h4⟩ := ih (b.add_mook m) hb' hm'
      have happ : applySpawns b (SpawnOp.mook m :: ops) = applySpawns (b.add_mook m) ops := rfl
      refine ⟨by rw [happ]; exact h1, by rw [happ]; exact h2, ?_, ?_⟩
      · rw [happ, h3, countP_isFire_cons_mook,
            show (b.add_mook m).bulletct = b.bulletct from rfl]
      · rw [happ, h4, countP_notFire_cons_mook,
            show (b.add_mook m).mookct = b.mookct + 1 from rfl]
        omega

lemma wrap_x (v : Vec2) : (wrap v).x = if 1.05 < |v.x| then -v.x else v.x := by
  unfold wrap wrapY
  by_cases hx : (1.05 : ℝ) < |v.x| <;> by_cases hy : (1.05 : ℝ) < |v.y| <;>
    simp [hx, hy]

lemma wrap_y (v : Vec2) : (wrap v).y = if 1.05 < |v.y| then -v.y else v.y := by
  unfold wrap wrapY
  by_cases hx : (1.05 : ℝ) < |v.x| <;> by_cases hy : (1.05 : ℝ) < |v.y| <;>
    simp [hx, hy]

/-! Concrete boards used in counterexamples and witnesses. -/

/-- Board with one stationary mook and one stationary bullet, both at the
origin: a pair that any two-phase collision test must report as a hit. -/
noncomputable def cexBoardA : Board :=
  ⟨Ship.new, [(0, ⟨⟨0, 0⟩, ⟨0, 0⟩, 0, 1, 5⟩)], [(0, ⟨⟨0, 0⟩, ⟨0, 0⟩⟩)], 1, 1⟩

/-- The board `cexBoardA` steps to: only the mook's spin angle changes. -/
noncomputable def cexBoardA' : Board :=
  ⟨Ship.new, [(0, ⟨⟨0, 0⟩, ⟨0, 0⟩, 0.1, 1, 5⟩)], [(0, ⟨⟨0, 0⟩, ⟨0, 0⟩⟩)], 1, 1⟩

/-- Board with a stationary mook and bullet coincident at `(0.5, 0)`. -/
noncomputable def cexBoardB : Board :=
  ⟨Ship.new, [(0, ⟨⟨0.5, 0⟩, ⟨0, 0⟩, 0, 1, 5⟩)], [(0, ⟨⟨0.5, 0⟩, ⟨0, 0⟩⟩)], 1, 1⟩

/-- The board `cexBoardB` steps to: only the mook's spin angle changes. -/
noncomputable def cexBoardB' : Board :=
  ⟨Ship.new, [(0, ⟨⟨0.5, 0⟩, ⟨0, 0⟩, 0.1, 1, 5⟩)], [(0, ⟨⟨0.5, 0⟩, ⟨0, 0⟩⟩)], 1, 1⟩

/-- Board with a single in-range stationary bullet at `(0, 1)`. -/
noncomputable def wBoard1 : Board := ⟨Ship.new, [], [(0, ⟨⟨0, 1⟩, ⟨0, 0⟩⟩)], 1, 0⟩

/-- Board with one in-range bullet (key 0) and one out-of-range bullet
(key 1, squared norm 8). -/
noncomputable def wBoard2 : Board :=
  ⟨Ship.new, [], [(0, ⟨⟨0, 0⟩, ⟨0, 0⟩⟩), (1, ⟨⟨2, 2⟩, ⟨0, 0⟩⟩)], 2, 0⟩

/-- Board with a single out-of-range bullet at `(3, 0)`. -/
noncomputable def wBoard9 : Board := ⟨Ship.new, [], [(0, ⟨⟨3, 0⟩, ⟨0, 0⟩⟩)], 1, 0⟩

/-- The board one `Board::step` of a fresh board produces: the fresh board
itself. -/
noncomputable def steppedNew : Board := ⟨Ship.new, [], [], 0, 0⟩

/-! Claim theorems. -/

/-- Claim C1, counterexample to the claim as stated: stepping a board whose
mook and bullet coincide at the origin leaves both untouched, so `step`
does not run any collision detection/resolution pass between the mook
advancement and the sweep. -/
theorem step_phase_order_cex :
    Board.step cexBoardA = some cexBoardA' ∧
    ¬ collisionResolved (advanceAll cexBoardA) cexBoardA' := by
  constructor
  · rw [step_eq cexBoardA (by simp [cexBoardA, keysOf])]
    simp [cexBoardA, cexBoardA', Ship.new, Ship.step, Mook.step, Bullet.step,
      Vec2.add, Vec2.smul, Vec2.sqnorm, wrap, wrapY, STEP]
  · intro h
    have hm : lookupKey 0 (advanceAll cexBoardA).mooks = some ⟨⟨0, 0⟩, ⟨0, 0⟩, 0.1, 1, 5⟩ := by
      simp [advanceAll, cexBoardA, Mook.step, Vec2.add, Vec2.smul, wrap, wrapY, STEP, lookupKey]
    have hb : lookupKey 0 (advanceAll cexBoardA).bullets = some ⟨⟨0, 0⟩, ⟨0, 0⟩⟩ := by
      simp [advanceAll, cexBoardA, Bullet.step, Vec2.add, Vec2.smul, STEP, lookupKey]
    have h2 := h 0 _ 0 _ hm hb rfl
    rcases h2 with h3 | ⟨m1, hm1, hlt⟩
    · simp [cexBoardA', lookupKey] at h3
    · simp [cexBoardA', lookupKey] at hm1
      rw [← hm1] at hlt
      simp at hlt

/-- Claim C1, amended: one call to `Board.step` advances the ship, then
every live bullet, then every live mook, and then sweeps the bullets whose
squared norm exceeds 2; no collision pass runs, the mook map only has its
values advanced (no mook is ever removed), and the counters are unchanged. -/
theorem step_phase_order (b : Board) (h : (keysOf b.bullets).Nodup) :
    Board.step b =
      some { ship := b.ship.step,
             mooks := b.mooks.map (fun p => (p.1, p.2.step)),
             bullets := (b.bullets.map (fun p => (p.1, p.2.step))).filter
               (fun p => p.2.pos.sqnorm ≤ 2),
             bulletct := b.bulletct, mookct := b.mookct } :=
  step_eq b h

/-- Claim C1, witness: the amended step characterization evaluated on a
concrete one-bullet board. -/
theorem step_phase_order_witness :
    (keysOf wBoard1.bullets).Nodup ∧
    Board.step wBoard1 =
      some { ship := wBoard1.ship.step,
             mooks := wBoard1.mooks.map (fun p => (p.1, p.2.step)),
             bullets := (wBoard1.bullets.map (fun p => (p.1, p.2.step))).filter
               (fun p => p.2.pos.sqnorm ≤ 2),
             bulletct := wBoard1.bulletct, mookct := wBoard1.mookct } :=
  ⟨by simp [wBoard1, keysOf], step_phase_order wBoard1 (by simp [wBoard1, keysOf])⟩

/-- Claim C2: under distinct bullet keys, the sweep keeps a bullet exactly
when its squared norm is at most 2 (so it removes it exactly when the
squared norm exceeds 2), and after a `step` every surviving bullet has
squared norm at most 2. -/
theorem bullet_sweep_iff (b : Board) (h : (keysOf b.bullets).Nodup) :
    (∀ b1, Board.sweep b = some b1 →
      (∀ k bl, (k, bl) ∈ b1.bullets ↔ ((k, bl) ∈ b.bullets ∧ bl.pos.sqnorm ≤ 2))) ∧
    (∀ b1, Board.step b = some b1 → ∀ k bl, (k, bl) ∈ b1.bullets → bl.pos.sqnorm ≤ 2) := by
  constructor
  · intro b1 h1 k bl
    rw [sweep_eq b h] at h1
    obtain rfl := Option.some.inj h1
    simp [List.mem_filter]
  · intro b1 h1 k bl hmem
    rw [step_eq b h] at h1
    obtain rfl := Option.some.inj h1
    exact (by simpa using (List.mem_filter.mp hmem).2)

/-- Claim C2, witness: the sweep characterization evaluated on a concrete
board holding one in-range and one out-of-range bullet. -/
theorem bullet_sweep_iff_witness :
    (keysOf wBoard2.bullets).Nodup ∧
    ((∀ b1, Board.sweep wBoard2 = some b1 →
      (∀ k bl, (k, bl) ∈ b1.bullets ↔ ((k, bl) ∈ wBoard2.bullets ∧ bl.pos.sqnorm ≤ 2))) ∧
    (∀ b1, Board.step wBoard2 = some b1 → ∀ k bl, (k, bl) ∈ b1.bullets → bl.pos.sqnorm ≤ 2)) :=
  ⟨by simp [wBoard2, keysOf], bullet_sweep_iff wBoard2 (by simp [wBoard2, keysOf])⟩

/-- Claim C3: for every ship and every nonempty sequence of `accelerate`
calls, the velocity magnitude after the calls is at most 1. -/
theorem speed_cap (s : Ship) (l : List ℝ) (h : l ≠ []) :
    ((l.foldl Ship.accelerate s).vel).norm ≤ 1 := by
  cases l with
  | nil => exact absurd rfl h
  | cons a l => simpa [List.foldl_cons] using foldl_accelerate_norm_le l s a

/-- Claim C3, witness: the speed cap evaluated after one acceleration of
magnitude 1 from a fresh ship. -/
theorem speed_cap_witness :
    ([(1 : ℝ)] ≠ []) ∧ ((([(1 : ℝ)]).foldl Ship.accelerate Ship.new).vel).norm ≤ 1 :=
  ⟨by simp, speed_cap Ship.new [1] (by simp)⟩

/-- Claim C4: `wrap` preserves the magnitude of both components, flips the
sign of a component exactly when its absolute value exceeds 1.05, and leaves
a component within range unchanged; the two axes are treated independently
(the x result never depends on y and conversely). -/
theorem wrap_spec (v : Vec2) :
    |(wrap v).x| = |v.x| ∧ |(wrap v).y| = |v.y| ∧
    (1.05 < |v.x| → (wrap v).x = -v.x) ∧ (|v.x| ≤ 1.05 → (wrap v).x = v.x) ∧
    (1.05 < |v.y| → (wrap v).y = -v.y) ∧ (|v.y| ≤ 1.05 → (wrap v).y = v.y) := by
  refine ⟨?_, ?_, ?_, ?_, ?_, ?_⟩
  · rw [wrap_x]
    split_ifs <;> simp [abs_neg]
  · rw [wrap_y]
    split_ifs <;> simp [abs_neg]
  · intro h
    rw [wrap_x, if_pos h]
  · intro h
    rw [wrap_x, if_neg (not_lt.mpr h)]
  · intro h
    rw [wrap_y, if_pos h]
  · intro h
    rw [wrap_y, if_neg (not_lt.mpr h)]

/-- Claim C4, witness: `wrap` evaluated at `(2, 0.5)` flips the x component
and keeps the y component. -/
theorem wrap_spec_witness :
    (wrap ⟨2, 0.5⟩).x = -2 ∧ (wrap ⟨2, 0.5⟩).y = 0.5 :=
  ⟨(wrap_spec ⟨2, 0.5⟩).2.2.1 (by norm_num [abs_of_nonneg]),
   (wrap_spec ⟨2, 0.5⟩).2.2.2.2.2 (by norm_num [abs_of_nonneg])⟩

/-- Claim C5: `Ship.fire` returns a bullet at the ship's position with
velocity the orientation unit vector scaled by the muzzle speed 2, the ship
itself is untouched by `Board.fire`, and a fresh board (ship at the origin
with orientation 0) that fires once holds exactly one bullet, with position
`(0, 0)` and velocity `(2, 0)`, under key 0. -/
theorem fire_spec :
    (∀ s : Ship, (s.fire).pos = s.pos ∧ (s.fire).vel = s.orient_vec.smul 2) ∧
    (∀ b : Board, (Board.fire b).ship = b.ship) ∧
    (Board.fire Board.new).bullets = [(0, ⟨⟨0, 0⟩, ⟨2, 0⟩⟩)] := by
  refine ⟨fun s => ⟨rfl, rfl⟩, fun b => rfl, ?_⟩
  simp [Board.fire, Board.new, Ship.new, Ship.fire, Ship.orient_vec, insertKV, keysOf,
    Vec2.smul]

/-- Claim C6: from a fresh board, any interleaving of `add_mook` and `fire`
calls with N mook spawns and M bullet spawns yields mook keys exactly
`0..N-1` and bullet keys exactly `0..M-1`, in issuance order, with the
counters equal to N and M; moreover every operation (including ticks, whose
sweep removes bullets) leaves both counters nondecreasing and preserves the
invariant that keys are distinct and below their counter, so a removed key
is never reissued. -/
theorem key_uniqueness :
    (∀ ops : List SpawnOp,
        keysOf (applySpawns Board.new ops).bullets =
          List.range (ops.countP SpawnOp.isFire) ∧
        keysOf (applySpawns Board.new ops).mooks =
          List.range (ops.countP (fun s => !s.isFire)) ∧
        (applySpawns Board.new ops).bulletct = ops.countP SpawnOp.isFire ∧
        (applySpawns Board.new ops).mookct = ops.countP (fun s => !s.isFire)) ∧
    (∀ (b : Board) (op : Op) (b1 : Board), applyOp b op = some b1 →
        b.bulletct ≤ b1.bulletct ∧ b.mookct ≤ b1.mookct) ∧
    (∀ (ops : List Op) (b1 : Board), applyOps Board.new ops = some b1 → Board.WF b1) := by
  refine ⟨?_, ?_, ?_⟩
  · intro ops
    obtain ⟨h1, h2, h3, h4⟩ := applySpawns_keys ops Board.new rfl rfl
    have h3' : (applySpawns Board.new ops).bulletct = ops.countP SpawnOp.isFire := by
      simpa [Board.new] using h3
    have h4' : (applySpawns Board.new ops).mookct = ops.countP (fun s => !s.isFire) := by
      simpa [Board.new] using h4
    exact ⟨h3' ▸ h1, h4' ▸ h2, h3', h4'⟩
  · intro b op b1 h
    exact applyOp_counters h
  · intro ops b1 h
    exact applyOps_WF ops Board.new b1 h WF_new

/-- Claim C6, witness: two fires from a fresh board produce the bullet keys
`[0, 1]`. -/
theorem key_uniqueness_witness :
    keysOf (applySpawns Board.new [SpawnOp.fire, SpawnOp.fire]).bullets = [0, 1] := by
  rw [(key_uniqueness.1 [SpawnOp.fire, SpawnOp.fire]).1]
  rfl

/-- Claim C7: holding Left adds exactly `10·π/180` to the ship's
orientation, holding Right subtracts exactly `10·π/180`, and turning leaves
the ship's velocity (and position) unchanged. -/
theorem turn_spec (b : Board) :
    ((applyKey b Key.left).ship.orient = b.ship.orient + 10 * Real.pi / 180 ∧
      (applyKey b Key.left).ship.vel = b.ship.vel ∧
      (applyKey b Key.left).ship.pos = b.ship.pos) ∧
    ((applyKey b Key.right).ship.orient = b.ship.orient - 10 * Real.pi / 180 ∧
      (applyKey b Key.right).ship.vel = b.ship.vel ∧
      (applyKey b Key.right).ship.pos = b.ship.pos) :=
  ⟨⟨rfl, rfl, rfl⟩, ⟨rfl, rfl, rfl⟩⟩

/-- Claim C8: the collision pass of the source is an inert stub. On a board
whose mook and bullet coincide at `(0.5, 0)` — a pair every broad-phase and
exact-phase test accepts — `collision_detect` changes nothing, and a full
`step` leaves the bullet in the map and the mook's health at 1: no bullet
removal and no health decrement ever happens. -/
theorem collision_stub_cex :
    Board.collision_detect cexBoardB = cexBoardB ∧
    Board.step cexBoardB = some cexBoardB' ∧
    lookupKey 0 cexBoardB'.bullets = some ⟨⟨0.5, 0⟩, ⟨0, 0⟩⟩ ∧
    (lookupKey 0 cexBoardB'.mooks).map Mook.health = some 1 := by
  refine ⟨rfl, ?_, by simp [cexBoardB', lookupKey], by simp [cexBoardB', lookupKey]⟩
  rw [step_eq cexBoardB (by simp [cexBoardB, keysOf])]
  simp [cexBoardB, cexBoardB', Ship.new, Ship.step, Mook.step, Bullet.step,
    Vec2.add, Vec2.smul, Vec2.sqnorm, wrap, wrapY, STEP]
  norm_num [abs_of_nonneg]

/-- Claim C9: whenever the bullet keys are distinct (as the `HashMap` and
the counter discipline guarantee), every key collected by the sweep is
present at its removal, so the sweep never hits the `unwrap` panic. -/
theorem sweep_total (b : Board) (h : (keysOf b.bullets).Nodup) :
    (Board.sweep b).isSome := by
  rw [sweep_eq b h]
  rfl

/-- Claim C9, witness: the sweep succeeds on a concrete board whose only
bullet is out of range and gets removed. -/
theorem sweep_total_witness :
    (keysOf wBoard9.bullets).Nodup ∧ (Board.sweep wBoard9).isSome :=
  ⟨by simp [wBoard9, keysOf], sweep_total wBoard9 (by simp [wBoard9, keysOf])⟩

/-- Claim C10: the ship's health is 1 at creation and no operation ever
changes it, so every board reachable from a fresh board by any sequence of
ticks, spawns and key intents has ship health exactly 1. -/
theorem ship_health_one (ops : List Op) (b1 : Board)
    (h : applyOps Board.new ops = some b1) : b1.ship.health = 1 := by
  rw [applyOps_health ops Board.new b1 h]
  rfl

/-- Claim C10, witness: the health invariant evaluated after one tick of a
fresh board. -/
theorem ship_health_one_witness :
    applyOps Board.new [Op.tick] = some steppedNew ∧ steppedNew.ship.health = 1 := by
  have h : applyOps Board.new [Op.tick] = some steppedNew := by
    have h1 : Board.step Board.new = some steppedNew := by
      rw [step_eq Board.new (by simp [Board.new, keysOf])]
      simp [Board.new, steppedNew, Ship.new, Ship.step, Vec2.add, Vec2.smul, wrap, wrapY, STEP]
    simp [applyOps, applyOp, h1]
  exact ⟨h, ship_health_one [Op.tick] steppedNew h⟩
